import Mathlib

/-!
Verification of the MapleFE parsing-engine core against its specification.

The definitions below are shallow embeddings of the C++ sources:
  * `container.h`         — the `Guamian` hanging-noodle container;
  * `shared/src/ast.cpp`  — AST construction (`Manipulate`, `Manipulate2Cast`,
                            `Manipulate2Binary`, `VarListNode::Merge`,
                            `ExprListNode::Merge`) together with the operator
                            table from `supported_operators.def`;
  * the recursion-analysis module (`Recursion::Init` and its helpers
    `FindRecursionNodes`, `FindLeadFronNodes`, `FindFronNodes`);
  * `recdetect/rec_detect.cpp` — `RecDetector::DetectRuleTable`.

Pointers to rule tables are represented by natural-number indices into a
`Grammar`; machine `unsigned` values whose overflow can never be reached on
the inputs considered are represented by `Nat` (each such spot is noted).
-/

namespace MapleFE

/-! ## Guamian (container.h)

A `Guamian K E` is a linked list of knobs, each knob carrying a key and a
linked list of elements.  We model it as `List (K × List E)`: the head of the
outer list is `mHeader`, the head of each inner list is `mChildren`.  The
`mAttr` field and the memory pool are irrelevant to element contents and are
omitted. -/

/-- `Guamian::AddElem(Knob*, E)` (container.h:202): scan the knob's element
list; only when `data` is absent is a new element pushed at the head. -/
def guamianAddElemKnob {E : Type} [DecidableEq E] (elems : List E) (data : E) : List E :=
  if data ∈ elems then elems else data :: elems

/-- `Guamian::FindKnob` (container.h:172): first knob with the key. -/
def guamianFindKnob {K E : Type} [DecidableEq K] (g : List (K × List E)) (key : K) :
    Option (K × List E) :=
  g.find? (fun p => p.1 = key)

/-- Rewrite the element list of the first knob with the given key. -/
def guamianUpdateKnob {K E : Type} [DecidableEq K] :
    List (K × List E) → K → (List E → List E) → List (K × List E)
  | [], _, _ => []
  | (k, es) :: rest, key, f =>
    if k = key then (k, f es) :: rest else (k, es) :: guamianUpdateKnob rest key f

/-- `Guamian::AddElem(K, E)` (container.h:328): `FindOrCreateKnob` followed by
the private `AddElem`.  A missing knob is created and becomes the new header
(container.h:187-198). -/
def guamianAddElem {K E : Type} [DecidableEq K] [DecidableEq E]
    (g : List (K × List E)) (key : K) (data : E) : List (K × List E) :=
  match guamianFindKnob g key with
  | some _ => guamianUpdateKnob g key (fun es => guamianAddElemKnob es data)
  | none => (key, [data]) :: g

/-! ## Operators (supported_operators.def, ast.cpp:30-52)

`supported.h` (outside the excerpted sources) encodes the five operator
properties as distinct bits of an `unsigned`; `property & Binary` etc. test
one bit, so we model the descriptor as a record of Booleans. -/

inductive OprId where
  | Add | Sub | Mul | Div | Mod | Inc | Dec
  | EQ | NE | GT | LT | GE | LE
  | Band | Bor | Bxor | Bcomp
  | Shl | Shr | Zext
  | Land | Lor | Not
  | Assign | AddAssign | SubAssign | MulAssign | DivAssign | ModAssign
  | ShlAssign | ShrAssign | BandAssign | BorAssign | BxorAssign | ZextAssign
  | Arrow | Select | Cond
  deriving DecidableEq, Repr

structure OprDesc where
  unary : Bool
  binary : Bool
  ternary : Bool
  pre : Bool
  post : Bool
  deriving DecidableEq, Repr

/-- `gOperatorDesc` (ast.cpp:32), expanded from `supported_operators.def`,
one entry per `OPERATOR(T, D)` line in file order. -/
def gOperatorDesc : List (OprId × OprDesc) :=
  [ (.Add, ⟨true, true, false, false, false⟩),
    (.Sub, ⟨true, true, false, false, false⟩),
    (.Mul, ⟨false, true, false, false, false⟩),
    (.Div, ⟨false, true, false, false, false⟩),
    (.Mod, ⟨false, true, false, false, false⟩),
    (.Inc, ⟨false, false, false, true, true⟩),
    (.Dec, ⟨false, false, false, true, true⟩),
    (.EQ, ⟨false, true, false, false, false⟩),
    (.NE, ⟨false, true, false, false, false⟩),
    (.GT, ⟨false, true, false, false, false⟩),
    (.LT, ⟨false, true, false, false, false⟩),
    (.GE, ⟨false, true, false, false, false⟩),
    (.LE, ⟨false, true, false, false, false⟩),
    (.Band, ⟨false, true, false, false, false⟩),
    (.Bor, ⟨false, true, false, false, false⟩),
    (.Bxor, ⟨true, false, false, false, false⟩),
    (.Bcomp, ⟨true, false, false, false, false⟩),
    (.Shl, ⟨false, true, false, false, false⟩),
    (.Shr, ⟨false, true, false, false, false⟩),
    (.Zext, ⟨false, true, false, false, false⟩),
    (.Land, ⟨false, true, false, false, false⟩),
    (.Lor, ⟨false, true, false, false, false⟩),
    (.Not, ⟨true, false, false, false, false⟩),
    (.Assign, ⟨false, true, false, false, false⟩),
    (.AddAssign, ⟨false, true, false, false, false⟩),
    (.SubAssign, ⟨false, true, false, false, false⟩),
    (.MulAssign, ⟨false, true, false, false, false⟩),
    (.DivAssign, ⟨false, true, false, false, false⟩),
    (.ModAssign, ⟨false, true, false, false, false⟩),
    (.ShlAssign, ⟨false, true, false, false, false⟩),
    (.ShrAssign, ⟨false, true, false, false, false⟩),
    (.BandAssign, ⟨false, true, false, false, false⟩),
    (.BorAssign, ⟨false, true, false, false, false⟩),
    (.BxorAssign, ⟨false, true, false, false, false⟩),
    (.ZextAssign, ⟨false, true, false, false, false⟩),
    (.Arrow, ⟨false, true, false, false, false⟩),
    (.Select, ⟨false, false, true, false, false⟩),
    (.Cond, ⟨false, false, true, false, false⟩) ]

/-- `GetOperatorProperty` (ast.cpp:36): linear search of `gOperatorDesc`;
the `MERROR` fall-through (no entry found) is the `none` case. -/
def GetOperatorProperty (id : OprId) : Option OprDesc :=
  (gOperatorDesc.find? (fun p => p.1 = id)).map (fun p => p.2)

/-! ## AST tree nodes (ast.h / ast_nk.def)

Only the node kinds that the claimed code paths inspect are given their own
constructors; every other kind (`Literal`, `Block`, `Function`, ...) is
collapsed into `otherN`, which the inspected code treats uniformly ("not a
parenthesis / unary / pass / list node"). -/

inductive TreeNode where
  | identifierN (name : Nat)
  | parenthesisN (expr : TreeNode)
  | castN (destType : TreeNode) (expr : TreeNode)
  | unaOperatorN (oprId : OprId) (opnd : TreeNode)
  | binOperatorN (oprId : OprId) (opndA : TreeNode) (opndB : TreeNode)
  | varListN (vars : List TreeNode)
  | exprListN (exprs : List TreeNode)
  | passN (children : List TreeNode)
  | otherN (kind : Nat)
  deriving Repr

/-- `TreeNode::IsParenthesis()`. -/
def TreeNode.isParenthesis : TreeNode → Bool
  | .parenthesisN _ => true
  | _ => false

/-- `ASTTree::Manipulate2Cast` (ast.cpp:225-235): when the first child is a
parenthesis node, build a `CastNode` with the parenthesised expression as the
destination type and the second child as the operand; otherwise NULL. -/
def Manipulate2Cast (child_a child_b : TreeNode) : Option TreeNode :=
  match child_a with
  | .parenthesisN e => some (.castN e child_b)
  | _ => none

/-- `ASTTree::Manipulate2Binary` (ast.cpp:237-249): when the second child is a
unary operation whose operator has both the `Binary` and `Unary` property,
build a binary operation over the first child and the unary operand;
otherwise NULL.  The `none` case of `GetOperatorProperty` is the source's
`MERROR` path, unreachable because every `OprId` is in the table. -/
def Manipulate2Binary (child_a child_b : TreeNode) : Option TreeNode :=
  match child_b with
  | .unaOperatorN op opnd =>
    match GetOperatorProperty op with
    | some d =>
      if d.binary && d.unary then some (.binOperatorN op child_a opnd) else none
    | none => none
  | _ => none

/-- `ASTTree::Manipulate` (ast.cpp:167-223).  The argument is the list of
`GetAstTreeNode()` results of the sorted children; `child_trees` is its
sub-list of non-NULL entries.  One child: pass it through.  Two children: try
the cast manipulation, then the binary manipulation, then fall through.  Any
remaining non-empty list is wrapped in a `PassNode`; an empty list gives NULL.
(`NewTreeNode`, ast.cpp:102-163, reaches this exact computation whenever the
rule has no action producing a tree node.) -/
def Manipulate (childAsts : List (Option TreeNode)) : Option TreeNode :=
  match childAsts.filterMap id with
  | [] => none
  | [t] => some t
  | [a, b] =>
    match Manipulate2Cast a b with
    | some t => some t
    | none =>
      match Manipulate2Binary a b with
      | some t => some t
      | none => some (.passN [a, b])
  | ts => some (.passN ts)

/-! ## VarListNode::Merge and ExprListNode::Merge (ast.cpp:521-569)

The accumulator is the current `mVars` / `mExprs` list; `PushBack` appends.
`VarListNode::Merge` hits `MERROR` (modelled as `none`) on a node that is
neither an identifier, a variable list, nor a Pass node. -/

mutual

def varListMerge : List TreeNode → TreeNode → Option (List TreeNode)
  | acc, .identifierN n => some (acc ++ [.identifierN n])
  | acc, .varListN vs => some (acc ++ vs)
  | acc, .passN cs => varListMergeList acc cs
  | _, _ => none

def varListMergeList : List TreeNode → List TreeNode → Option (List TreeNode)
  | acc, [] => some acc
  | acc, c :: cs =>
    match varListMerge acc c with
    | some acc' => varListMergeList acc' cs
    | none => none

end

mutual

def exprListMerge : List TreeNode → TreeNode → List TreeNode
  | acc, .exprListN es => acc ++ es
  | acc, .passN cs => exprListMergeList acc cs
  | acc, n => acc ++ [n]

def exprListMergeList : List TreeNode → List TreeNode → List TreeNode
  | acc, [] => acc
  | acc, c :: cs => exprListMergeList (exprListMerge acc c) cs

end

/-! Spec-side contents functions for claim C7.  `passContents` renders the
claim's words "the children recursively contained in the Pass node": nested
Pass wrappers are flattened, everything else contributes itself. -/

mutual

def passContents : TreeNode → List TreeNode
  | .passN cs => passContentsList cs
  | n => [n]

def passContentsList : List TreeNode → List TreeNode
  | [] => []
  | c :: cs => passContents c ++ passContentsList cs

end

/-! The flattening the merge routines actually perform: a nested
expression/variable list contributes its members, a nested Pass its flattened
contents, a plain node itself (an identifier, for the variable-list case). -/

mutual

def exprFlatten : TreeNode → List TreeNode
  | .exprListN es => es
  | .passN cs => exprFlattenList cs
  | n => [n]

def exprFlattenList : List TreeNode → List TreeNode
  | [] => []
  | c :: cs => exprFlatten c ++ exprFlattenList cs

end

mutual

def varFlatten : TreeNode → Option (List TreeNode)
  | .identifierN n => some [.identifierN n]
  | .varListN vs => some vs
  | .passN cs => varFlattenList cs
  | _ => none

def varFlattenList : List TreeNode → Option (List TreeNode)
  | [] => some []
  | c :: cs =>
    match varFlatten c with
    | some l =>
      match varFlattenList cs with
      | some l' => some (l ++ l')
      | none => none
    | none => none

end

/-! ## Theorems about the Guamian container (claim C9) -/

theorem guamianAddElemKnob_mem {E : Type} [DecidableEq E] (es : List E) (d : E) :
    d ∈ guamianAddElemKnob es d := by
  unfold guamianAddElemKnob
  split <;> simp_all

theorem guamianAddElemKnob_idem {E : Type} [DecidableEq E] (es : List E) (d : E) :
    guamianAddElemKnob (guamianAddElemKnob es d) d = guamianAddElemKnob es d := by
  by_cases h : d ∈ es <;> simp [guamianAddElemKnob, h]

theorem guamianUpdateKnob_comp {K E : Type} [DecidableEq K]
    (g : List (K × List E)) (key : K) (f f' : List E → List E) :
    guamianUpdateKnob (guamianUpdateKnob g key f) key f' =
      guamianUpdateKnob g key (fun es => f' (f es)) := by
  induction g with
  | nil => rfl
  | cons p rest ih =>
    obtain ⟨k, es⟩ := p
    by_cases h : k = key <;> simp [guamianUpdateKnob, h, ih]

theorem guamianFindKnob_update {K E : Type} [DecidableEq K]
    (g : List (K × List E)) (key : K) (f : List E → List E) :
    guamianFindKnob (guamianUpdateKnob g key f) key =
      (guamianFindKnob g key).map (fun p => (p.1, f p.2)) := by
  induction g with
  | nil => rfl
  | cons p rest ih =>
    obtain ⟨k, es⟩ := p
    by_cases h : k = key
    · simp [guamianFindKnob, guamianUpdateKnob, h, List.find?_cons]
    · simp only [guamianFindKnob, guamianUpdateKnob, h, if_false, List.find?_cons]
      simpa [guamianFindKnob, h] using ih

/-- C9.  `Guamian::AddElem` is idempotent: adding `(key, data)` a second time
returns the container in literally the same state (so the element count under
`key` and the result of every query — `FindElem`, `FindFirstElem`,
`NumOfElem`, `GetElemAtIndex` — are unchanged): the private `AddElem` scans
the knob's element list and inserts only when `data` is absent. -/
theorem guamianAddElem_idem {K E : Type} [DecidableEq K] [DecidableEq E]
    (g : List (K × List E)) (key : K) (data : E) :
    guamianAddElem (guamianAddElem g key data) key data = guamianAddElem g key data := by
  unfold guamianAddElem
  cases h : guamianFindKnob g key with
  | none =>
    simp [guamianFindKnob, guamianUpdateKnob, guamianAddElemKnob, List.find?_cons]
  | some p =>
    rw [guamianFindKnob_update, h, guamianUpdateKnob_comp]
    show guamianUpdateKnob g key
        (fun es => guamianAddElemKnob (guamianAddElemKnob es data) data) =
      guamianUpdateKnob g key fun es => guamianAddElemKnob es data
    congr 1
    funext es
    exact guamianAddElemKnob_idem es data

/-! ## Theorems about Manipulate (claims C5, C6, C8) -/

/-- C5.  For a rule appeal node whose rule has no action producing an AST
node and whose sorted children yield exactly two AST subtrees, the first
being a parenthesis node: the built AST is a Cast node whose destination
type is the parenthesised expression and whose operand is the second
subtree (`ASTTree::Manipulate` via `Manipulate2Cast`). -/
theorem manipulate_two_cast (childAsts : List (Option TreeNode)) (e b : TreeNode)
    (h : childAsts.filterMap id = [.parenthesisN e, b]) :
    Manipulate childAsts = some (.castN e b) := by
  unfold Manipulate
  rw [h]
  rfl

theorem manipulate_two_cast_witness :
    ([some (TreeNode.parenthesisN (.otherN 0)), none, some (.otherN 1)] :
        List (Option TreeNode)).filterMap id = [.parenthesisN (.otherN 0), .otherN 1] ∧
      Manipulate [some (.parenthesisN (.otherN 0)), none, some (.otherN 1)] =
        some (.castN (.otherN 0) (.otherN 1)) :=
  ⟨rfl, manipulate_two_cast _ (.otherN 0) (.otherN 1) rfl⟩

/-- C6.  For a rule appeal node whose rule has no action and whose sorted
children yield exactly two AST subtrees, the first not a parenthesis node and
the second a unary operation whose operator has both the `Unary` and the
`Binary` property: the built AST is a binary operation with that operator,
left operand the first subtree, right operand the unary operand
(`ASTTree::Manipulate` via `Manipulate2Binary`). -/
theorem manipulate_two_binary (childAsts : List (Option TreeNode)) (a : TreeNode)
    (op : OprId) (opnd : TreeNode) (d : OprDesc)
    (h : childAsts.filterMap id = [a, .unaOperatorN op opnd])
    (hnp : a.isParenthesis = false)
    (hd : GetOperatorProperty op = some d)
    (hu : d.unary = true) (hb : d.binary = true) :
    Manipulate childAsts = some (.binOperatorN op a opnd) := by
  have hc : Manipulate2Cast a (.unaOperatorN op opnd) = none := by
    cases a <;> simp_all [Manipulate2Cast, TreeNode.isParenthesis]
  have hbin : Manipulate2Binary a (.unaOperatorN op opnd) =
      some (.binOperatorN op a opnd) := by
    simp [Manipulate2Binary, hd, hu, hb]
  have hm : Manipulate childAsts =
      match Manipulate2Cast a (.unaOperatorN op opnd) with
      | some t => some t
      | none =>
        match Manipulate2Binary a (.unaOperatorN op opnd) with
        | some t => some t
        | none => some (.passN [a, .unaOperatorN op opnd]) := by
    unfold Manipulate
    rw [h]
  rw [hm, hc, hbin]

theorem manipulate_two_binary_witness :
    ([some (TreeNode.otherN 0), some (.unaOperatorN .Add (.identifierN 1))] :
        List (Option TreeNode)).filterMap id = [.otherN 0, .unaOperatorN .Add (.identifierN 1)] ∧
      GetOperatorProperty .Add = some ⟨true, true, false, false, false⟩ ∧
      Manipulate [some (.otherN 0), some (.unaOperatorN .Add (.identifierN 1))] =
        some (.binOperatorN .Add (.otherN 0) (.identifierN 1)) :=
  ⟨rfl, rfl,
    manipulate_two_binary _ (.otherN 0) .Add (.identifierN 1)
      ⟨true, true, false, false, false⟩ rfl rfl rfl rfl rfl⟩

/-- C8.  For a rule appeal node whose rule has no action: when exactly one
sorted child produced an AST subtree, the node's resulting AST is that
subtree itself, unchanged (ast.cpp:179-186). -/
theorem manipulate_single (childAsts : List (Option TreeNode)) (t : TreeNode)
    (h : childAsts.filterMap id = [t]) :
    Manipulate childAsts = some t := by
  unfold Manipulate
  rw [h]

theorem manipulate_single_witness :
    ([none, some (TreeNode.identifierN 3)] : List (Option TreeNode)).filterMap id =
        [.identifierN 3] ∧
      Manipulate [none, some (.identifierN 3)] = some (.identifierN 3) :=
  ⟨rfl, manipulate_single _ (.identifierN 3) rfl⟩

/-! ## Theorems about VarListNode::Merge / ExprListNode::Merge (claim C7) -/

mutual

theorem exprListMerge_eq_flatten (n : TreeNode) :
    ∀ acc, exprListMerge acc n = acc ++ exprFlatten n := by
  cases n with
  | passN cs =>
    intro acc
    simpa [exprListMerge, exprFlatten] using exprListMergeList_eq_flatten cs acc
  | exprListN es => intro acc; simp [exprListMerge, exprFlatten]
  | identifierN m => intro acc; simp [exprListMerge, exprFlatten]
  | parenthesisN e => intro acc; simp [exprListMerge, exprFlatten]
  | castN d e => intro acc; simp [exprListMerge, exprFlatten]
  | unaOperatorN o e => intro acc; simp [exprListMerge, exprFlatten]
  | binOperatorN o x y => intro acc; simp [exprListMerge, exprFlatten]
  | varListN vs => intro acc; simp [exprListMerge, exprFlatten]
  | otherN k => intro acc; simp [exprListMerge, exprFlatten]

theorem exprListMergeList_eq_flatten (l : List TreeNode) :
    ∀ acc, exprListMergeList acc l = acc ++ exprFlattenList l := by
  cases l with
  | nil => intro acc; simp [exprListMergeList, exprFlattenList]
  | cons c cs =>
    intro acc
    rw [exprListMergeList, exprFlattenList, exprListMergeList_eq_flatten cs,
      exprListMerge_eq_flatten c, List.append_assoc]

end

mutual

theorem varListMerge_eq_flatten (n : TreeNode) :
    ∀ acc, varListMerge acc n = (varFlatten n).map (fun l => acc ++ l) := by
  cases n with
  | passN cs =>
    intro acc
    simpa [varListMerge, varFlatten] using varListMergeList_eq_flatten cs acc
  | exprListN es => intro acc; simp [varListMerge, varFlatten]
  | identifierN m => intro acc; simp [varListMerge, varFlatten]
  | parenthesisN e => intro acc; simp [varListMerge, varFlatten]
  | castN d e => intro acc; simp [varListMerge, varFlatten]
  | unaOperatorN o e => intro acc; simp [varListMerge, varFlatten]
  | binOperatorN o x y => intro acc; simp [varListMerge, varFlatten]
  | varListN vs => intro acc; simp [varListMerge, varFlatten]
  | otherN k => intro acc; simp [varListMerge, varFlatten]

theorem varListMergeList_eq_flatten (l : List TreeNode) :
    ∀ acc, varListMergeList acc l = (varFlattenList l).map (fun ls => acc ++ ls) := by
  cases l with
  | nil => intro acc; simp [varListMergeList, varFlattenList]
  | cons c cs =>
    intro acc
    rw [varListMergeList, varFlattenList, varListMerge_eq_flatten c]
    cases hv : varFlatten c with
    | none => simp
    | some ls =>
      simp only [Option.map_some']
      rw [varListMergeList_eq_flatten cs]
      cases hvs : varFlattenList cs with
      | none => simp
      | some ls' => simp [List.append_assoc]

end

mutual

theorem exprFlatten_sizeOf (t : TreeNode) :
    ∀ x ∈ exprFlatten t, sizeOf x ≤ sizeOf t := by
  cases t with
  | exprListN es =>
    intro x hx
    simp only [exprFlatten] at hx
    have := List.sizeOf_lt_of_mem hx
    simp only [TreeNode.exprListN.sizeOf_spec]
    omega
  | passN cs =>
    intro x hx
    simp only [exprFlatten] at hx
    obtain ⟨c, hc, hle⟩ := exprFlattenList_sizeOf cs x hx
    have := List.sizeOf_lt_of_mem hc
    simp only [TreeNode.passN.sizeOf_spec]
    omega
  | identifierN m =>
    intro x hx; simp only [exprFlatten, List.mem_singleton] at hx; exact hx ▸ le_rfl
  | parenthesisN e =>
    intro x hx; simp only [exprFlatten, List.mem_singleton] at hx; exact hx ▸ le_rfl
  | castN d e =>
    intro x hx; simp only [exprFlatten, List.mem_singleton] at hx; exact hx ▸ le_rfl
  | unaOperatorN o e =>
    intro x hx; simp only [exprFlatten, List.mem_singleton] at hx; exact hx ▸ le_rfl
  | binOperatorN o a b =>
    intro x hx; simp only [exprFlatten, List.mem_singleton] at hx; exact hx ▸ le_rfl
  | varListN vs =>
    intro x hx; simp only [exprFlatten, List.mem_singleton] at hx; exact hx ▸ le_rfl
  | otherN k =>
    intro x hx; simp only [exprFlatten, List.mem_singleton] at hx; exact hx ▸ le_rfl

theorem exprFlattenList_sizeOf (l : List TreeNode) :
    ∀ x ∈ exprFlattenList l, ∃ c ∈ l, sizeOf x ≤ sizeOf c := by
  cases l with
  | nil => intro x hx; simp [exprFlattenList] at hx
  | cons c cs =>
    intro x hx
    rw [exprFlattenList, List.mem_append] at hx
    cases hx with
    | inl h => exact ⟨c, List.mem_cons_self c cs, exprFlatten_sizeOf c x h⟩
    | inr h =>
      obtain ⟨c', hc', hle⟩ := exprFlattenList_sizeOf cs x h
      exact ⟨c', List.mem_cons_of_mem c hc', hle⟩

end

mutual

theorem varFlatten_sizeOf (t : TreeNode) :
    ∀ l, varFlatten t = some l → ∀ x ∈ l, sizeOf x ≤ sizeOf t := by
  cases t with
  | identifierN m =>
    intro l hl x hx
    simp only [varFlatten, Option.some.injEq] at hl
    subst hl
    simp only [List.mem_singleton] at hx
    exact hx ▸ le_rfl
  | varListN vs =>
    intro l hl x hx
    simp only [varFlatten, Option.some.injEq] at hl
    subst hl
    have := List.sizeOf_lt_of_mem hx
    simp only [TreeNode.varListN.sizeOf_spec]
    omega
  | passN cs =>
    intro l hl x hx
    simp only [varFlatten] at hl
    obtain ⟨c, hc, hle⟩ := varFlattenList_sizeOf cs l hl x hx
    have := List.sizeOf_lt_of_mem hc
    simp only [TreeNode.passN.sizeOf_spec]
    omega
  | exprListN es => intro l hl; simp [varFlatten] at hl
  | parenthesisN e => intro l hl; simp [varFlatten] at hl
  | castN d e => intro l hl; simp [varFlatten] at hl
  | unaOperatorN o e => intro l hl; simp [varFlatten] at hl
  | binOperatorN o a b => intro l hl; simp [varFlatten] at hl
  | otherN k => intro l hl; simp [varFlatten] at hl

theorem varFlattenList_sizeOf (l : List TreeNode) :
    ∀ ls, varFlattenList l = some ls → ∀ x ∈ ls, ∃ c ∈ l, sizeOf x ≤ sizeOf c := by
  cases l with
  | nil =>
    intro ls hls x hx
    simp only [varFlattenList, Option.some.injEq] at hls
    subst hls
    simp at hx
  | cons c cs =>
    intro ls hls x hx
    rw [varFlattenList] at hls
    cases hv : varFlatten c with
    | none => rw [hv] at hls; exact absurd hls (by simp)
    | some l1 =>
      rw [hv] at hls
      cases hvs : varFlattenList cs with
      | none => rw [hvs] at hls; exact absurd hls (by simp)
      | some l2 =>
        rw [hvs] at hls
        simp only [Option.some.injEq] at hls
        subst hls
        rw [List.mem_append] at hx
        cases hx with
        | inl h => exact ⟨c, List.mem_cons_self c cs, varFlatten_sizeOf c l1 hv x h⟩
        | inr h =>
          obtain ⟨c', hc', hle⟩ := varFlattenList_sizeOf cs l2 hvs x h
          exact ⟨c', List.mem_cons_of_mem c hc', hle⟩

end

/-- C7 counterexample.  Merging a Pass node that contains an expression-list
child: the code adds the list's member expressions, not "the children
recursively contained in the Pass node" — the contained `ExprListNode` child
itself is never added. -/
theorem exprListMerge_pass_counterexample :
    exprListMerge [] (.passN [.exprListN [.otherN 0]]) = [.otherN 0] ∧
      passContents (.passN [.exprListN [.otherN 0]]) = [.exprListN [.otherN 0]] ∧
      ([.otherN 0] : List TreeNode) ≠ [.exprListN [.otherN 0]] := by
  refine ⟨?_, ?_, by simp⟩
  · simp [exprListMerge, exprListMergeList]
  · simp [passContents, passContentsList]

/-- C7 amended.  Merging a Pass node into an expression list (resp. a
variable list) appends, in order, the recursive flattening of the Pass's
contents, where a nested Pass contributes its flattened contents, a nested
expression list (resp. variable list) contributes its members, and a plain
node contributes itself (for a variable list, a node that is neither an
identifier, a variable list nor a Pass is a fatal error, `none`).  Every
element so added is strictly smaller than the merged Pass node, so the Pass
wrapper itself never becomes a member of the list. -/
theorem mergePass_flattens (acc cs : List TreeNode) :
    exprListMerge acc (.passN cs) = acc ++ exprFlattenList cs ∧
      varListMerge acc (.passN cs) = (varFlattenList cs).map (fun l => acc ++ l) ∧
      (∀ x ∈ exprFlattenList cs, sizeOf x < sizeOf (TreeNode.passN cs)) ∧
      (∀ l, varFlattenList cs = some l →
        ∀ x ∈ l, sizeOf x < sizeOf (TreeNode.passN cs)) := by
  refine ⟨?_, ?_, ?_, ?_⟩
  · simpa [exprFlatten] using exprListMerge_eq_flatten (.passN cs) acc
  · simpa [varFlatten] using varListMerge_eq_flatten (.passN cs) acc
  · intro x hx
    have h := exprFlatten_sizeOf (.passN cs) x (by simpa [exprFlatten] using hx)
    have h2 : sizeOf x ≤ sizeOf (TreeNode.passN cs) := h
    obtain ⟨c, hc, hle⟩ := exprFlattenList_sizeOf cs x hx
    have := List.sizeOf_lt_of_mem hc
    simp only [TreeNode.passN.sizeOf_spec]
    omega
  · intro l hl x hx
    obtain ⟨c, hc, hle⟩ := varFlattenList_sizeOf cs l hl x hx
    have := List.sizeOf_lt_of_mem hc
    simp only [TreeNode.passN.sizeOf_spec]
    omega

theorem mergePass_flattens_witness :
    exprListMerge [.otherN 9] (.passN [.exprListN [.otherN 0], .passN [.identifierN 1]]) =
        [.otherN 9, .otherN 0, .identifierN 1] ∧
      varListMerge [.identifierN 7] (.passN [.identifierN 1, .varListN [.identifierN 2]]) =
        some [.identifierN 7, .identifierN 1, .identifierN 2] := by
  have h1 := (mergePass_flattens [.otherN 9]
    [.exprListN [.otherN 0], .passN [.identifierN 1]]).1
  have h2 := (mergePass_flattens [.identifierN 7]
    [.identifierN 1, .varListN [.identifierN 2]]).2.1
  refine ⟨?_, ?_⟩
  · rw [h1]
    simp [exprFlattenList, exprFlatten]
  · rw [h2]
    simp [varFlattenList, varFlatten]

/-! ## Rule tables and the recursion analysis (ruletable.h, recursion.cpp)

Rule tables are referenced by index into a `Grammar`.  A `TableData` child
slot is a system token or a sub-table; the `DT_Char`/`DT_String`/`DT_Type`
variants never occur in the tables the recursion analysis walks, so they are
omitted (this also sidesteps the `data->mType = DT_Subtable` assignment noted
by the spec: with only these two variants, the always-true assignment and the
intended equality agree).  A circle is stored in the source as an `unsigned`
array whose slot 0 is the length; we model it as the plain list of its child
indices. -/

inductive EntryType where
  | ET_Oneof | ET_Concatenate | ET_Zeroormore | ET_Zeroorone | ET_Data | ET_Null
  deriving DecidableEq, Repr

inductive TableData where
  | DT_Token (tok : Nat)
  | DT_Subtable (rt : Nat)
  deriving DecidableEq, Repr

structure RuleTable where
  mType : EntryType
  mData : List TableData
  deriving DecidableEq, Repr

def Grammar : Type := Nat → RuleTable

/-- The payload of a `FronNode` (`mType` together with the `mData` union). -/
inductive FronData where
  | fdTable (rt : Nat)
  | fdToken (tok : Nat)
  | fdStartIndex (idx : Nat)
  deriving DecidableEq, Repr

structure FronNode where
  mPos : Nat
  mData : FronData
  deriving DecidableEq, Repr

/-- The `switch (data->mType)` bodies inside `RuleFindChildAtIndex`
(recursion.cpp:36-48 and 58-70): convert a table-data slot to a `FronNode`
payload; `none` is the out-of-bounds read (undefined in the C source). -/
def childToFron : Option TableData → Option FronData
  | some (.DT_Subtable rt) => some (.fdTable rt)
  | some (.DT_Token tk) => some (.fdToken tk)
  | none => none

/-- `RuleFindChildAtIndex` (recursion.cpp:27-80).  Returns the `index`-th
child as a token or rule; `none` covers the `MERROR`/`MASSERT` aborts.  For
the one-child kinds the source asserts `index == 0` and reads `mData[0]`. -/
def RuleFindChildAtIndex (g : Grammar) (parent index : Nat) : Option FronData :=
  match (g parent).mType with
  | .ET_Concatenate | .ET_Oneof => childToFron ((g parent).mData.get? index)
  | .ET_Data | .ET_Zeroorone | .ET_Zeroormore =>
    if index = 0 then childToFron ((g parent).mData.get? 0) else none
  | .ET_Null => none

/-- One step along a circle: the child at `idx` of `prev`, which the callers
(`FindRecursionNodes`, `FindRuleOnCircle`, `FindFronNodes`) assert to be a
rule (`MASSERT(node.mType == FNT_Rule)`). -/
def stepRule (g : Grammar) (prev idx : Nat) : Option Nat :=
  match RuleFindChildAtIndex g prev idx with
  | some (.fdTable rt) => some rt
  | _ => none

/-- The successive rule tables visited by following a circle's child indices
from `prev` (one entry per index). -/
def circleRules (g : Grammar) (prev : Nat) : List Nat → Option (List Nat)
  | [] => some []
  | idx :: rest =>
    match stepRule g prev idx with
    | some rt => (circleRules g rt rest).map (fun tr => rt :: tr)
    | none => none

/-- The inner loop of `Recursion::FindRecursionNodes` (recursion.cpp:139-164)
for one circle: walk the circle, push every intermediate rule not already in
the accumulator, and check that the last edge returns to the lead node
(`MASSERT(rt == mLeadNode)`). -/
def collectCircleNodes (g : Grammar) (lead : Nat) :
    Nat → List Nat → List Nat → Option (List Nat)
  | _prev, [], acc => some acc
  | prev, [idx], acc =>
    match stepRule g prev idx with
    | some rt => if rt = lead then some acc else none
    | none => none
  | prev, idx :: rest, acc =>
    match stepRule g prev idx with
    | some rt =>
      collectCircleNodes g lead rt rest (if rt ∈ acc then acc else acc ++ [rt])
    | none => none

/-- The outer loop of `FindRecursionNodes`, threading the accumulator over
the circles. -/
def collectAllCircles (g : Grammar) (lead : Nat) :
    List (List Nat) → List Nat → Option (List Nat)
  | [], acc => some acc
  | c :: cs, acc =>
    match collectCircleNodes g lead lead c acc with
    | some acc' => collectAllCircles g lead cs acc'
    | none => none

/-- `Recursion::FindRecursionNodes` (recursion.cpp:139-164): the lead node
followed by the deduplicated intermediate nodes of every circle. -/
def FindRecursionNodes (g : Grammar) (lead : Nat) (circles : List (List Nat)) :
    Option (List Nat) :=
  collectAllCircles g lead circles [lead]

/-- The per-child body of the `ET_Oneof` branch of `FindLeadFronNodes`
(recursion.cpp:231-259), given the already-computed value of `found` (which
the source computes — buggily — independently of the child). -/
def leadFronOfChild (found : Bool) : TableData → Option FronNode
  | .DT_Token tk => some ⟨0, .fdToken tk⟩
  | .DT_Subtable rt => if found then none else some ⟨0, .fdTable rt⟩

/-- `Recursion::FindLeadFronNodes` (recursion.cpp:212-299).
For a OneOf lead: collect `circle[1]` of every circle into `circle_indices`
(asserting every circle has at least 2 slots), then for each child of the
lead push a token FronNode or — if `found` is false — a rule FronNode.  The
source computes `found` with `if (k == circle_indices.ValueAtIndex(k))`,
comparing the loop counter `k` with the stored index instead of the child
index `i`; we translate that faithfully.
For the one-child kinds there is no FronNode (the second `MASSERT` on that
path compares a pointer with an integer and is not modelled).
For a Concatenate lead: per circle, a concatenation FronNode starting right
after the entry child, unless the entry child is the last one.  (`mNum` is
unsigned; a rule table always has at least one child, so `Nat` subtraction
agrees with the source.) -/
def FindLeadFronNodes (g : Grammar) (lead : Nat) (circles : List (List Nat)) :
    Option (List FronNode) :=
  match (g lead).mType with
  | .ET_Oneof =>
    if circles.all (fun c => 2 ≤ c.length) then
      let circle_indices := circles.map (fun c => c.headD 0)
      let found := (List.range circle_indices.length).any
        (fun k => circle_indices.get? k = some k)
      some ((g lead).mData.filterMap (leadFronOfChild found))
    else none
  | .ET_Zeroormore | .ET_Zeroorone | .ET_Data =>
    if (g lead).mData.length = 1 then some [] else none
  | .ET_Concatenate =>
    if circles.all (fun c => 2 ≤ c.length) then
      some (circles.filterMap (fun c =>
        if c.headD 0 < (g lead).mData.length - 1 then
          some ⟨0, .fdStartIndex (c.headD 0 + 1)⟩
        else none))
    else none
  | .ET_Null => none

/-- The per-child body of the `ET_Oneof` branch of `FindFronNodes`
(recursion.cpp:381-403): a token child is always a FronNode; a sub-table
child is one when it is neither the next rule on the circle nor one of the
recursion nodes. -/
def oneofFronOfChild (recNodes : List Nat) (next j : Nat) : TableData → Option FronNode
  | .DT_Token tk => some ⟨j, .fdToken tk⟩
  | .DT_Subtable rt =>
    if rt ∈ recNodes then none
    else if rt = next then none
    else some ⟨j, .fdTable rt⟩

/-- The `switch (prev_type)` body of `Recursion::FindFronNodes`
(recursion.cpp:370-436): the FronNodes contributed by the circle rule `prev`,
entered at `child_index`, whose successor on the circle is `next`, at circle
position `j`.  `none` models the `MASSERT` aborts of the one-child kinds and
the `ET_Null` default. -/
def fronStep (g : Grammar) (recNodes : List Nat) (prev child_index next j : Nat) :
    Option (List FronNode) :=
  match (g prev).mType with
  | .ET_Oneof => some ((g prev).mData.filterMap (oneofFronOfChild recNodes next j))
  | .ET_Zeroormore | .ET_Zeroorone | .ET_Data =>
    if (g prev).mData.length = 1 ∧ child_index = 0 then some [] else none
  | .ET_Concatenate =>
    -- `child_index < prev->mNum - 1` on `unsigned`; `prev` has at least one
    -- child (the circle enters it), so `Nat` subtraction agrees.
    some (if child_index < (g prev).mData.length - 1 then
      [⟨j, .fdStartIndex (child_index + 1)⟩] else [])
  | .ET_Null => none

/-- The loop of `Recursion::FindFronNodes(unsigned)` (recursion.cpp:347-440)
from circle position `j` onward.  Position `j = 1` is skipped (its FronNode
is a LeadFronNode); the last step checks the back edge
(`MASSERT(next == mLeadNode)`). -/
def fronWorker (g : Grammar) (recNodes : List Nat) (lead : Nat) :
    Nat → Nat → List Nat → Option (List FronNode)
  | _j, _prev, [] => some []
  | j, prev, idx :: rest =>
    match stepRule g prev idx with
    | none => none
    | some next =>
      if rest = [] ∧ next ≠ lead then none
      else if j = 1 then fronWorker g recNodes lead (j + 1) next rest
      else
        match fronStep g recNodes prev idx next j with
        | none => none
        | some contrib =>
          (fronWorker g recNodes lead (j + 1) next rest).map (fun fr => contrib ++ fr)

/-- `Recursion::FindFronNodes(unsigned circle_index)` for one circle. -/
def FindFronNodesCircle (g : Grammar) (recNodes : List Nat) (lead : Nat)
    (circle : List Nat) : Option (List FronNode) :=
  fronWorker g recNodes lead 1 lead circle

/-- `Recursion::FindFronNodes()` (recursion.cpp:442-447): one FronNode list
per circle. -/
def FindFronNodesAll (g : Grammar) (recNodes : List Nat) (lead : Nat) :
    List (List Nat) → Option (List (List FronNode))
  | [] => some []
  | c :: cs =>
    match FindFronNodesCircle g recNodes lead c with
    | some fr => (FindFronNodesAll g recNodes lead cs).map (fun l => fr :: l)
    | none => none

/-- The results of `Recursion::Init` (recursion.cpp:107-126): the collected
lead node and circles, the recursion nodes, the lead FronNodes and the
per-circle FronNodes. -/
structure RecursionInfo where
  leadNode : Nat
  circles : List (List Nat)
  recursionNodes : List Nat
  leadFronNodes : List FronNode
  fronNodes : List (List FronNode)
  deriving DecidableEq, Repr

/-- `Recursion::Init` : `FindRecursionNodes`, then `FindLeadFronNodes`, then
`FindFronNodes`. -/
def RecursionInit (g : Grammar) (lead : Nat) (circles : List (List Nat)) :
    Option RecursionInfo :=
  match FindRecursionNodes g lead circles with
  | none => none
  | some rn =>
    match FindLeadFronNodes g lead circles with
    | none => none
    | some lf =>
      match FindFronNodesAll g rn lead circles with
      | none => none
      | some fns => some ⟨lead, circles, rn, lf, fns⟩

/-! ## Claim C1: the LeadFronNode computation for a OneOf lead -/

/-- The LeadFronNode computation as claim C1 (and the comment at
recursion.cpp:225-230) states it: for a OneOf lead, every token child is a
LeadFronNode, and a sub-table child is one exactly when its child index is
not the first position of any of the group's circles.  Stated from the
claim's words, for comparison with `FindLeadFronNodes`. -/
def claimLeadFronNodes (g : Grammar) (lead : Nat) (circles : List (List Nat)) :
    List FronNode :=
  (g lead).mData.enum.filterMap (fun p =>
    match p.2 with
    | .DT_Token tk => some ⟨0, .fdToken tk⟩
    | .DT_Subtable rt =>
      if circles.any (fun c => c.headD 0 = p.1) then none
      else some ⟨0, .fdTable rt⟩)

/-- A group whose OneOf lead (table 0) has the recursive alternative at child
index 0 (table 1, which loops straight back) and a non-recursive alternative
at child index 1 (table 2). -/
def gC1 : Grammar := fun n =>
  match n with
  | 0 => ⟨.ET_Oneof, [.DT_Subtable 1, .DT_Subtable 2]⟩
  | 1 => ⟨.ET_Oneof, [.DT_Subtable 0]⟩
  | _ => ⟨.ET_Oneof, [.DT_Token 9]⟩

/-- C1 fails on the code: `FindLeadFronNodes` computes its `found` flag by
comparing the loop counter `k` with `circle_indices[k]`
(recursion.cpp:244-245) instead of comparing the child index `i`, so on
`gC1` — where circle 0 starts at child index 0, making `k = 0` match — every
sub-table child is dropped and no LeadFronNode at all is produced, although
child index 1 is not the first position of any circle and the claim requires
table 2 to be a LeadFronNode. -/
theorem findLeadFronNodes_bug_eval :
    FindLeadFronNodes gC1 0 [[0, 0]] = some [] ∧
      claimLeadFronNodes gC1 0 [[0, 0]] = [⟨0, .fdTable 2⟩] ∧
      some ([] : List FronNode) ≠ some [(⟨0, .fdTable 2⟩ : FronNode)] := by
  refine ⟨by decide, by decide, by decide⟩

/-! ## Claim C4: FindRecursionNodes -/

theorem circleRules_length (g : Grammar) :
    ∀ idxs prev tr, circleRules g prev idxs = some tr → tr.length = idxs.length := by
  intro idxs
  induction idxs with
  | nil =>
    intro prev tr h
    simp only [circleRules, Option.some.injEq] at h
    subst h; rfl
  | cons idx rest ih =>
    intro prev tr h
    unfold circleRules at h
    split at h
    · rename_i rt hs
      cases htr : circleRules g rt rest with
      | none => rw [htr] at h; exact absurd h (by simp)
      | some tr' =>
        rw [htr] at h
        simp only [Option.map_some', Option.some.injEq] at h
        subst h
        simp [ih rt tr' htr]
    · exact absurd h (by simp)

theorem circleRules_cons_of (g : Grammar) {prev idx rt : Nat} {rest tr : List Nat}
    (hs : stepRule g prev idx = some rt) (htr : circleRules g rt rest = some tr) :
    circleRules g prev (idx :: rest) = some (rt :: tr) := by
  unfold circleRules
  rw [hs]
  simp [htr]

theorem collectCircleNodes_spec (g : Grammar) (lead : Nat) :
    ∀ idxs prev acc acc', collectCircleNodes g lead prev idxs acc = some acc' →
      ∃ tr, circleRules g prev idxs = some tr ∧
        (idxs ≠ [] → tr.getLast? = some lead) ∧
        (∀ x, x ∈ acc' ↔ x ∈ acc ∨ x ∈ tr.dropLast) ∧
        (acc.Nodup → acc'.Nodup) := by
  intro idxs
  induction idxs with
  | nil =>
    intro prev acc acc' h
    simp only [collectCircleNodes, Option.some.injEq] at h
    subst h
    exact ⟨[], rfl, by simp, by simp, fun hn => hn⟩
  | cons idx rest ih =>
    intro prev acc acc' h
    cases rest with
    | nil =>
      simp only [collectCircleNodes] at h
      split at h
      · rename_i rt hs
        split at h
        · rename_i hrt
          simp only [Option.some.injEq] at h
          subst h
          refine ⟨[rt], ?_, ?_, by simp, fun hn => hn⟩
          · exact circleRules_cons_of g hs rfl
          · intro _; simp [hrt]
        · exact absurd h (by simp)
      · exact absurd h (by simp)
    | cons idx2 rest2 =>
      simp only [collectCircleNodes] at h
      split at h
      case _ rt hs =>
        obtain ⟨tr', htr', hlast', hmem', hnd'⟩ := ih rt _ acc' h
        have htrne : tr' ≠ [] := by
          have := circleRules_length g (idx2 :: rest2) rt tr' htr'
          intro hx; subst hx; simp at this
        refine ⟨rt :: tr', ?_, ?_, ?_, ?_⟩
        · exact circleRules_cons_of g hs htr'
        · intro _
          cases tr' with
          | nil => exact absurd rfl htrne
          | cons y ys => rw [List.getLast?_cons_cons]; exact hlast' (by simp)
        · intro x
          have hdl : (rt :: tr').dropLast = rt :: tr'.dropLast := by
            cases tr' with
            | nil => exact absurd rfl htrne
            | cons y ys => rfl
          rw [hdl]
          rw [hmem' x]
          by_cases hin : rt ∈ acc
          · rw [if_pos hin]
            constructor
            · rintro (hx | hx)
              · exact Or.inl hx
              · exact Or.inr (List.mem_cons_of_mem rt hx)
            · rintro (hx | hx)
              · exact Or.inl hx
              · rcases List.mem_cons.mp hx with hx | hx
                · exact Or.inl (hx ▸ hin)
                · exact Or.inr hx
          · rw [if_neg hin]
            simp only [List.mem_append, List.mem_singleton, List.mem_cons]
            tauto
        · intro hnd
          apply hnd'
          by_cases hin : rt ∈ acc
          · rwa [if_pos hin]
          · rw [if_neg hin]
            simp [List.nodup_append, hnd, hin]
      case _ hs => exact absurd h (by simp)

theorem collectAllCircles_spec (g : Grammar) (lead : Nat) :
    ∀ circles acc acc', collectAllCircles g lead circles acc = some acc' →
      (∀ x, x ∈ acc' ↔ x ∈ acc ∨
        ∃ c ∈ circles, ∃ tr, circleRules g lead c = some tr ∧ x ∈ tr.dropLast) ∧
      (acc.Nodup → acc'.Nodup) ∧
      (∀ c ∈ circles, ∃ tr, circleRules g lead c = some tr ∧
        (c ≠ [] → tr.getLast? = some lead)) := by
  intro circles
  induction circles with
  | nil =>
    intro acc acc' h
    simp only [collectAllCircles, Option.some.injEq] at h
    subst h
    exact ⟨by simp, fun hn => hn, by simp⟩
  | cons c cs ih =>
    intro acc acc' h
    simp only [collectAllCircles] at h
    split at h
    case _ acc1 hc =>
      obtain ⟨tr, htr, hlast, hmem, hnd⟩ := collectCircleNodes_spec g lead c lead acc acc1 hc
      obtain ⟨hmem2, hnd2, hall⟩ := ih acc1 acc' h
      refine ⟨?_, fun hn => hnd2 (hnd hn), ?_⟩
      · intro x
        rw [hmem2 x, hmem x]
        constructor
        · rintro ((hx | hx) | hx)
          · exact Or.inl hx
          · exact Or.inr ⟨c, List.mem_cons_self c cs, tr, htr, hx⟩
          · obtain ⟨c', hc', tr', htr', hx'⟩ := hx
            exact Or.inr ⟨c', List.mem_cons_of_mem c hc', tr', htr', hx'⟩
        · rintro (hx | hx)
          · exact Or.inl (Or.inl hx)
          · obtain ⟨c', hc', tr', htr', hx'⟩ := hx
            rcases List.mem_cons.mp hc' with hceq | hcs
            · subst hceq
              rw [htr'] at htr
              cases htr
              exact Or.inl (Or.inr hx')
            · exact Or.inr ⟨c', hcs, tr', htr', hx'⟩
      · intro c' hc'
        rcases List.mem_cons.mp hc' with hceq | hcs
        · subst hceq; exact ⟨tr, htr, hlast⟩
        · exact hall c' hcs
    case _ hc => exact absurd h (by simp)

/-- C4.  When `Recursion::Init` succeeds, the RecursionNodes list holds no
duplicates and consists of the LeadNode together with exactly the rules
visited along each circle's child indices, excluding the final back-edge
target; and the final edge of every circle leads back to the LeadNode. -/
theorem recursionInit_recursionNodes_spec (g : Grammar) (lead : Nat)
    (circles : List (List Nat)) (info : RecursionInfo)
    (h : RecursionInit g lead circles = some info) :
    info.recursionNodes.Nodup ∧ lead ∈ info.recursionNodes ∧
      (∀ c ∈ circles, ∃ tr, circleRules g lead c = some tr ∧
        (c ≠ [] → tr.getLast? = some lead) ∧
        ∀ x ∈ tr.dropLast, x ∈ info.recursionNodes) ∧
      (∀ x ∈ info.recursionNodes, x = lead ∨
        ∃ c ∈ circles, ∃ tr, circleRules g lead c = some tr ∧ x ∈ tr.dropLast) := by
  have hrn : FindRecursionNodes g lead circles = some info.recursionNodes := by
    unfold RecursionInit at h
    split at h
    · exact absurd h (by simp)
    case _ rn hr =>
      split at h
      · exact absurd h (by simp)
      case _ lf hl =>
        split at h
        · exact absurd h (by simp)
        case _ fns hf =>
          simp only [Option.some.injEq] at h
          subst h
          simpa using hr
  unfold FindRecursionNodes at hrn
  obtain ⟨hmem, hnd, hall⟩ := collectAllCircles_spec g lead circles [lead]
    info.recursionNodes hrn
  refine ⟨hnd (by simp), (hmem lead).mpr (Or.inl (by simp)), ?_, ?_⟩
  · intro c hc
    obtain ⟨tr, htr, hlast⟩ := hall c hc
    refine ⟨tr, htr, hlast, fun x hx => (hmem x).mpr (Or.inr ⟨c, hc, tr, htr, hx⟩)⟩
  · intro x hx
    rcases (hmem x).mp hx with hx | hx
    · simp only [List.mem_singleton] at hx; exact Or.inl hx
    · exact Or.inr hx

/-- A group whose OneOf lead (table 0) loops through table 1; table 1 has a
token alternative and a non-recursive sub-table alternative (table 3). -/
def gW : Grammar := fun n =>
  match n with
  | 0 => ⟨.ET_Oneof, [.DT_Subtable 1, .DT_Token 7]⟩
  | 1 => ⟨.ET_Oneof, [.DT_Subtable 0, .DT_Token 8, .DT_Subtable 3]⟩
  | _ => ⟨.ET_Oneof, [.DT_Token 9]⟩

theorem recursionInit_recursionNodes_spec_witness :
    ([0, 1] : List Nat).Nodup ∧ (0 : Nat) ∈ ([0, 1] : List Nat) := by
  have h := recursionInit_recursionNodes_spec gW 0 [[0, 0]]
    ⟨0, [[0, 0]], [0, 1], [⟨0, .fdToken 7⟩], [[⟨2, .fdToken 8⟩, ⟨2, .fdTable 3⟩]]⟩
    (by decide)
  exact ⟨h.1, h.2.1⟩

/-! ## Claims C2 and C3: FindFronNodes -/

theorem circleRules_cons_elim (g : Grammar) {prev idx : Nat} {rest tr : List Nat}
    (h : circleRules g prev (idx :: rest) = some tr) :
    ∃ next tr2, stepRule g prev idx = some next ∧ circleRules g next rest = some tr2 ∧
      tr = next :: tr2 := by
  unfold circleRules at h
  split at h
  case _ rt hs =>
    cases htr : circleRules g rt rest with
    | none => rw [htr] at h; exact absurd h (by simp)
    | some tr2 =>
      rw [htr] at h
      simp only [Option.map_some', Option.some.injEq] at h
      exact ⟨rt, tr2, hs, htr, h.symm⟩
  case _ => exact absurd h (by simp)

theorem circleRules_step (g : Grammar) :
    ∀ idxs prev tr, circleRules g prev idxs = some tr →
      ∀ d i p nx, idxs.get? d = some i → (prev :: tr).get? d = some p →
        tr.get? d = some nx → stepRule g p i = some nx := by
  intro idxs
  induction idxs with
  | nil =>
    intro prev tr h d i p nx hi
    simp at hi
  | cons idx rest ih =>
    intro prev tr h d i p nx hi hp hn
    obtain ⟨next, tr2, hs, htr2, rfl⟩ := circleRules_cons_elim g h
    cases d with
    | zero =>
      simp only [List.get?_cons_zero, Option.some.injEq] at hi hp hn
      subst hi; subst hp; subst hn
      exact hs
    | succ d' =>
      exact ih next tr2 htr2 d' i p nx (by simpa using hi) (by simpa using hp)
        (by simpa using hn)

/-- A successful circle step into a Concatenate (or OneOf) rule lands on the
sub-table child at the entry index. -/
theorem stepRule_concat_get (g : Grammar) {prev idx next : Nat}
    (hk : (g prev).mType = .ET_Concatenate)
    (h : stepRule g prev idx = some next) :
    (g prev).mData.get? idx = some (.DT_Subtable next) := by
  have hr0 : RuleFindChildAtIndex g prev idx =
      childToFron ((g prev).mData.get? idx) := by
    unfold RuleFindChildAtIndex
    rw [hk]
  cases hd : (g prev).mData.get? idx with
  | none =>
    have h2 : stepRule g prev idx = none := by
      unfold stepRule
      rw [hr0, hd]
      rfl
    rw [h2] at h
    exact absurd h (by simp)
  | some td =>
    cases td with
    | DT_Subtable rt =>
      have h2 : stepRule g prev idx = some rt := by
        unfold stepRule
        rw [hr0, hd]
        rfl
      rw [h2] at h
      simp only [Option.some.injEq] at h
      subst h
      rfl
    | DT_Token tk =>
      have h2 : stepRule g prev idx = none := by
        unfold stepRule
        rw [hr0, hd]
        rfl
      rw [h2] at h
      exact absurd h (by simp)

/-- Every FronNode a step contributes carries that step's circle position. -/
theorem oneofFronOfChild_pos (recNodes : List Nat) (next j : Nat) (d : TableData)
    (fn : FronNode) (hd : oneofFronOfChild recNodes next j d = some fn) :
    fn.mPos = j := by
  cases d with
  | DT_Token tk =>
    simp only [oneofFronOfChild, Option.some.injEq] at hd
    subst hd
    rfl
  | DT_Subtable rt =>
    simp only [oneofFronOfChild] at hd
    split at hd
    · exact absurd hd (by simp)
    · split at hd
      · exact absurd hd (by simp)
      · simp only [Option.some.injEq] at hd
        subst hd
        rfl

theorem fronStep_pos (g : Grammar) (recNodes : List Nat) (prev ci next j : Nat)
    (contrib : List FronNode) (h : fronStep g recNodes prev ci next j = some contrib) :
    ∀ fn ∈ contrib, fn.mPos = j := by
  have honeof : ∀ fn ∈ (g prev).mData.filterMap (oneofFronOfChild recNodes next j),
      fn.mPos = j := by
    intro fn hfn
    rw [List.mem_filterMap] at hfn
    obtain ⟨d, _, hd⟩ := hfn
    exact oneofFronOfChild_pos recNodes next j d fn hd
  have hconcat : ∀ fn ∈ (if ci < (g prev).mData.length - 1 then
      [(⟨j, .fdStartIndex (ci + 1)⟩ : FronNode)] else []), fn.mPos = j := by
    intro fn hfn
    split at hfn
    · simp only [List.mem_singleton] at hfn
      subst hfn
      rfl
    · simp at hfn
  have hempty : ∀ fn ∈ ([] : List FronNode), fn.mPos = j := by
    intro fn hfn
    simp at hfn
  unfold fronStep at h
  split at h
  · simp only [Option.some.injEq] at h
    subst h
    exact honeof
  · split at h
    · simp only [Option.some.injEq] at h
      subst h
      exact hempty
    · exact absurd h (by simp)
  · split at h
    · simp only [Option.some.injEq] at h
      subst h
      exact hempty
    · exact absurd h (by simp)
  · split at h
    · simp only [Option.some.injEq] at h
      subst h
      exact hempty
    · exact absurd h (by simp)
  · simp only [Option.some.injEq] at h
    subst h
    exact hconcat
  · exact absurd h (by simp)

/-- Positions recorded from circle position `j` onward are at least `j`. -/
theorem fronWorker_pos_ge (g : Grammar) (recNodes : List Nat) (lead : Nat) :
    ∀ idxs j prev frons, fronWorker g recNodes lead j prev idxs = some frons →
      ∀ fn ∈ frons, j ≤ fn.mPos := by
  intro idxs
  induction idxs with
  | nil =>
    intro j prev frons h
    simp only [fronWorker, Option.some.injEq] at h
    subst h
    intro fn hfn
    simp at hfn
  | cons idx rest ih =>
    intro j prev frons h
    unfold fronWorker at h
    split at h
    case _ => exact absurd h (by simp)
    case _ next hs =>
      split at h
      · exact absurd h (by simp)
      · split at h
        · intro fn hfn
          have := ih (j + 1) next frons h fn hfn
          omega
        · split at h
          case _ => exact absurd h (by simp)
          case _ contrib hc =>
            cases hw : fronWorker g recNodes lead (j + 1) next rest with
            | none => rw [hw] at h; exact absurd h (by simp)
            | some frons2 =>
              rw [hw] at h
              simp only [Option.map_some', Option.some.injEq] at h
              subst h
              intro fn hfn
              rcases List.mem_append.mp hfn with hfn | hfn
              · exact le_of_eq (fronStep_pos g recNodes prev idx next j contrib hc fn hfn).symm
              · have := ih (j + 1) next frons2 hw fn hfn
                omega

/-- The FronNodes `fronWorker` records at circle position `j + d` are exactly
the contribution of the single step at that position. -/
theorem fronWorker_filter_spec (g : Grammar) (recNodes : List Nat) (lead : Nat) :
    ∀ idxs j prev frons tr, fronWorker g recNodes lead j prev idxs = some frons →
      circleRules g prev idxs = some tr →
      ∀ d, d < idxs.length → 1 < j + d →
        ∃ i p nx contrib,
          idxs.get? d = some i ∧ (prev :: tr).get? d = some p ∧ tr.get? d = some nx ∧
          fronStep g recNodes p i nx (j + d) = some contrib ∧
          frons.filter (fun fn => fn.mPos = j + d) = contrib := by
  intro idxs
  induction idxs with
  | nil =>
    intro j prev frons tr _ _ d hd
    simp at hd
  | cons idx rest ih =>
    intro j prev frons tr h htr d hd hj
    obtain ⟨next2, tr2, hs2, htr2, rfl⟩ := circleRules_cons_elim g htr
    unfold fronWorker at h
    split at h
    case _ => exact absurd h (by simp)
    case _ next hs =>
      rw [hs] at hs2
      simp only [Option.some.injEq] at hs2
      subst hs2
      split at h
      · exact absurd h (by simp)
      · split at h
        case _ hj1 =>
          -- j = 1: the step at position 1 contributes nothing
          subst hj1
          cases d with
          | zero => omega
          | succ d' =>
            obtain ⟨i, p, nx, contrib, hi, hp, hn, hstep, hfil⟩ :=
              ih 2 next frons tr2 h htr2 d' (by simpa using hd) (by omega)
            have hjd : 2 + d' = 1 + (d' + 1) := by omega
            rw [hjd] at hstep hfil
            exact ⟨i, p, nx, contrib, by simpa using hi, by simpa using hp,
              by simpa using hn, hstep, hfil⟩
        case _ hj1 =>
          split at h
          case _ => exact absurd h (by simp)
          case _ contrib hc =>
            cases hw : fronWorker g recNodes lead (j + 1) next rest with
            | none => rw [hw] at h; exact absurd h (by simp)
            | some frons2 =>
              rw [hw] at h
              simp only [Option.map_some', Option.some.injEq] at h
              subst h
              cases d with
              | zero =>
                refine ⟨idx, prev, next, contrib, rfl, rfl, rfl, ?_, ?_⟩
                · simpa using hc
                · rw [List.filter_append]
                  have h1 : contrib.filter (fun fn => fn.mPos = j + 0) = contrib := by
                    apply List.filter_eq_self.mpr
                    intro fn hfn
                    simp [fronStep_pos g recNodes prev idx next j contrib hc fn hfn]
                  have h2 : frons2.filter (fun fn => fn.mPos = j + 0) = [] := by
                    apply List.filter_eq_nil_iff.mpr
                    intro fn hfn
                    have := fronWorker_pos_ge g recNodes lead rest (j + 1) next frons2 hw fn hfn
                    simp only [decide_eq_true_eq]
                    omega
                  rw [h1, h2, List.append_nil]
              | succ d' =>
                obtain ⟨i, p, nx, contrib2, hi, hp, hn, hstep, hfil⟩ :=
                  ih (j + 1) next frons2 tr2 hw htr2 d' (by simpa using hd) (by omega)
                have hjd : j + 1 + d' = j + (d' + 1) := by omega
                rw [hjd] at hstep hfil
                refine ⟨i, p, nx, contrib2, by simpa using hi, by simpa using hp,
                  by simpa using hn, hstep, ?_⟩
                rw [List.filter_append]
                have h1 : contrib.filter (fun fn => fn.mPos = j + (d' + 1)) = [] := by
                  apply List.filter_eq_nil_iff.mpr
                  intro fn hfn
                  have := fronStep_pos g recNodes prev idx next j contrib hc fn hfn
                  simp only [decide_eq_true_eq]
                  omega
                rw [h1, List.nil_append, hfil]

theorem mem_oneofFron (recNodes : List Nat) (next j : Nat) (data : List TableData)
    (fn : FronNode) :
    fn ∈ data.filterMap (oneofFronOfChild recNodes next j) ↔
      ((∃ tk, .DT_Token tk ∈ data ∧ fn = ⟨j, .fdToken tk⟩) ∨
       (∃ rt, .DT_Subtable rt ∈ data ∧ rt ∉ recNodes ∧ rt ≠ next ∧
         fn = ⟨j, .fdTable rt⟩)) := by
  rw [List.mem_filterMap]
  constructor
  · rintro ⟨d, hd, hfd⟩
    cases d with
    | DT_Token tk =>
      left
      refine ⟨tk, hd, ?_⟩
      simp only [oneofFronOfChild, Option.some.injEq] at hfd
      exact hfd.symm
    | DT_Subtable rt =>
      right
      simp only [oneofFronOfChild] at hfd
      split at hfd
      · exact absurd hfd (by simp)
      · rename_i hin
        split at hfd
        · exact absurd hfd (by simp)
        · rename_i hne
          simp only [Option.some.injEq] at hfd
          exact ⟨rt, hd, hin, hne, hfd.symm⟩
  · rintro (⟨tk, htk, rfl⟩ | ⟨rt, hrt, hnin, hne, rfl⟩)
    · exact ⟨.DT_Token tk, htk, rfl⟩
    · refine ⟨.DT_Subtable rt, hrt, ?_⟩
      simp [oneofFronOfChild, hnin, hne]

/-- C2.  For every circle of a left-recursive group and every OneOf rule on
that circle other than the LeadNode (the rule at circle position `j - 1`,
entered by the circle and leaving towards `next`, for `2 ≤ j ≤ len`), the
circle's FronNode list computed by `Recursion::FindFronNodes` contains, at
circle position `j`, exactly: every token child of that rule, and every
sub-table child that is neither the next rule on the circle nor one of the
group's RecursionNodes. -/
theorem findFronNodes_oneof_spec (g : Grammar) (recNodes : List Nat) (lead : Nat)
    (circle : List Nat) (frons : List FronNode) (tr : List Nat) (j prev next i : Nat)
    (hw : FindFronNodesCircle g recNodes lead circle = some frons)
    (htr : circleRules g lead circle = some tr)
    (hj2 : 2 ≤ j) (hjlen : j ≤ circle.length)
    (hi : circle.get? (j - 1) = some i)
    (hp : (lead :: tr).get? (j - 1) = some prev)
    (hn : tr.get? (j - 1) = some next)
    (hk : (g prev).mType = .ET_Oneof) :
    ∀ fn, (fn ∈ frons ∧ fn.mPos = j) ↔
      ((∃ tk, .DT_Token tk ∈ (g prev).mData ∧ fn = ⟨j, .fdToken tk⟩) ∨
       (∃ rt, .DT_Subtable rt ∈ (g prev).mData ∧ rt ∉ recNodes ∧ rt ≠ next ∧
         fn = ⟨j, .fdTable rt⟩)) := by
  unfold FindFronNodesCircle at hw
  obtain ⟨i2, p2, nx2, contrib, hi2, hp2, hn2, hstep, hfil⟩ :=
    fronWorker_filter_spec g recNodes lead circle 1 lead frons tr hw htr (j - 1)
      (by omega) (by omega)
  have hjj : 1 + (j - 1) = j := by omega
  rw [hjj] at hstep hfil
  have e1 : i = i2 := by rw [hi] at hi2; exact Option.some.inj hi2
  have e2 : prev = p2 := by rw [hp] at hp2; exact Option.some.inj hp2
  have e3 : next = nx2 := by rw [hn] at hn2; exact Option.some.inj hn2
  subst e1; subst e2; subst e3
  unfold fronStep at hstep
  split at hstep
  · -- ET_Oneof branch
    simp only [Option.some.injEq] at hstep
    subst hstep
    intro fn
    have hmf : fn ∈ frons.filter (fun fn => fn.mPos = j) ↔
        (fn ∈ frons ∧ fn.mPos = j) := by
      rw [List.mem_filter]
      simp
    rw [← hmf, hfil]
    exact mem_oneofFron recNodes next j (g prev).mData fn
  · rename_i heq; rw [hk] at heq; exact absurd heq (by simp)
  · rename_i heq; rw [hk] at heq; exact absurd heq (by simp)
  · rename_i heq; rw [hk] at heq; exact absurd heq (by simp)
  · rename_i heq; rw [hk] at heq; exact absurd heq (by simp)
  · rename_i heq; rw [hk] at heq; exact absurd heq (by simp)

theorem findFronNodes_oneof_spec_witness :
    FindFronNodesCircle gW [0, 1] 0 [0, 0] =
        some [⟨2, .fdToken 8⟩, ⟨2, .fdTable 3⟩] ∧
      (((⟨2, .fdTable 3⟩ : FronNode) ∈
          [(⟨2, .fdToken 8⟩ : FronNode), ⟨2, .fdTable 3⟩] ∧
        (⟨2, .fdTable 3⟩ : FronNode).mPos = 2) ↔
        ((∃ tk, .DT_Token tk ∈ (gW 1).mData ∧
            (⟨2, .fdTable 3⟩ : FronNode) = ⟨2, .fdToken tk⟩) ∨
         (∃ rt, .DT_Subtable rt ∈ (gW 1).mData ∧ rt ∉ ([0, 1] : List Nat) ∧
            rt ≠ 0 ∧ (⟨2, .fdTable 3⟩ : FronNode) = ⟨2, .fdTable rt⟩))) :=
  ⟨by decide,
    findFronNodes_oneof_spec gW [0, 1] 0 [0, 0]
      [⟨2, .fdToken 8⟩, ⟨2, .fdTable 3⟩] [1, 0] 2 1 0 0
      (by decide) (by decide) (by decide) (by decide) (by decide) (by decide)
      (by decide) (by decide) ⟨2, .fdTable 3⟩⟩

/-- C3.  Concatenation FronNodes.  First part: for a Concatenate rule on a
circle (position `j - 1`, entered at child index `i`), the circle's FronNode
list holds at position `j` exactly one concatenation FronNode with start
index `i + 1` when `i` is not the rule's last child, and nothing when it is.
Second part: for a Concatenate LeadNode, `FindLeadFronNodes` records, per
circle, exactly one concatenation FronNode with start index one past the
circle's entry child, unless that entry child is the last one. -/
theorem fronNodes_concat_spec (g : Grammar) (recNodes : List Nat) (lead : Nat) :
    (∀ circle frons tr j prev next i,
      FindFronNodesCircle g recNodes lead circle = some frons →
      circleRules g lead circle = some tr →
      2 ≤ j → j ≤ circle.length →
      circle.get? (j - 1) = some i →
      (lead :: tr).get? (j - 1) = some prev →
      tr.get? (j - 1) = some next →
      (g prev).mType = .ET_Concatenate →
      frons.filter (fun fn => fn.mPos = j) =
        (if i + 1 = (g prev).mData.length then []
         else [⟨j, .fdStartIndex (i + 1)⟩])) ∧
    (∀ circles lfrons,
      (g lead).mType = .ET_Concatenate →
      FindLeadFronNodes g lead circles = some lfrons →
      (∀ c ∈ circles, c.headD 0 < (g lead).mData.length) →
      lfrons = circles.filterMap (fun c =>
        if c.headD 0 + 1 = (g lead).mData.length then none
        else some ⟨0, .fdStartIndex (c.headD 0 + 1)⟩)) := by
  constructor
  · intro circle frons tr j prev next i hw htr hj2 hjlen hi hp hn hk
    unfold FindFronNodesCircle at hw
    obtain ⟨i2, p2, nx2, contrib, hi2, hp2, hn2, hstep, hfil⟩ :=
      fronWorker_filter_spec g recNodes lead circle 1 lead frons tr hw htr (j - 1)
        (by omega) (by omega)
    have hjj : 1 + (j - 1) = j := by omega
    rw [hjj] at hstep hfil
    have e1 : i = i2 := by rw [hi] at hi2; exact Option.some.inj hi2
    have e2 : prev = p2 := by rw [hp] at hp2; exact Option.some.inj hp2
    have e3 : next = nx2 := by rw [hn] at hn2; exact Option.some.inj hn2
    subst e1; subst e2; subst e3
    have hstep0 : stepRule g prev i = some next :=
      circleRules_step g circle lead tr htr (j - 1) i prev next hi hp hn
    have hget : (g prev).mData.get? i = some (.DT_Subtable next) :=
      stepRule_concat_get g hk hstep0
    have hlt : i < (g prev).mData.length := by
      rcases List.get?_eq_some.mp hget with ⟨hb, _⟩
      exact hb
    unfold fronStep at hstep
    split at hstep
    · rename_i heq; rw [hk] at heq; exact absurd heq (by simp)
    · rename_i heq; rw [hk] at heq; exact absurd heq (by simp)
    · rename_i heq; rw [hk] at heq; exact absurd heq (by simp)
    · rename_i heq; rw [hk] at heq; exact absurd heq (by simp)
    · -- ET_Concatenate branch
      simp only [Option.some.injEq] at hstep
      subst hstep
      rw [hfil]
      by_cases hlast : i + 1 = (g prev).mData.length
      · rw [if_pos hlast, if_neg (by omega)]
      · rw [if_neg hlast, if_pos (by omega)]
    · rename_i heq; rw [hk] at heq; exact absurd heq (by simp)
  · intro circles lfrons hk h hb
    unfold FindLeadFronNodes at h
    split at h
    · rename_i heq; rw [hk] at heq; exact absurd heq (by simp)
    · rename_i heq; rw [hk] at heq; exact absurd heq (by simp)
    · rename_i heq; rw [hk] at heq; exact absurd heq (by simp)
    · rename_i heq; rw [hk] at heq; exact absurd heq (by simp)
    · -- ET_Concatenate branch
      split at h
      · simp only [Option.some.injEq] at h
        subst h
        apply List.filterMap_congr
        intro c hc
        have hcb := hb c hc
        by_cases hlast : c.headD 0 + 1 = (g lead).mData.length
        · rw [if_neg (by omega), if_pos hlast]
        · rw [if_pos (by omega), if_neg hlast]
      · exact absurd h (by simp)
    · rename_i heq; rw [hk] at heq; exact absurd heq (by simp)

/-- A group with a Concatenate rule on the circle: lead table 0 is OneOf
with its sole child on the circle; table 1 is `Concatenate [subtable 0,
token 5]`, re-entering the lead at child 0. -/
def gW3 : Grammar := fun n =>
  match n with
  | 0 => ⟨.ET_Oneof, [.DT_Subtable 1]⟩
  | 1 => ⟨.ET_Concatenate, [.DT_Subtable 0, .DT_Token 5]⟩
  | _ => ⟨.ET_Oneof, [.DT_Token 9]⟩

/-- A group whose lead itself is Concatenate: `lead : B token`, `B : OneOf
[lead]`. -/
def gW3b : Grammar := fun n =>
  match n with
  | 0 => ⟨.ET_Concatenate, [.DT_Subtable 1, .DT_Token 6]⟩
  | 1 => ⟨.ET_Oneof, [.DT_Subtable 0]⟩
  | _ => ⟨.ET_Oneof, [.DT_Token 9]⟩

theorem fronNodes_concat_spec_witness :
    FindFronNodesCircle gW3 [0, 1] 0 [0, 0] = some [⟨2, .fdStartIndex 1⟩] ∧
      ([(⟨2, .fdStartIndex 1⟩ : FronNode)].filter (fun fn => fn.mPos = 2) =
        (if 0 + 1 = (gW3 1).mData.length then ([] : List FronNode)
         else [⟨2, .fdStartIndex 1⟩])) ∧
      FindLeadFronNodes gW3b 0 [[0, 0]] = some [⟨0, .fdStartIndex 1⟩] ∧
      [(⟨0, .fdStartIndex 1⟩ : FronNode)] = [[0, 0]].filterMap (fun c =>
        if c.headD 0 + 1 = (gW3b 0).mData.length then none
        else some ⟨0, .fdStartIndex (c.headD 0 + 1)⟩) :=
  ⟨by decide,
    (fronNodes_concat_spec gW3 [0, 1] 0).1 [0, 0] [⟨2, .fdStartIndex 1⟩] [1, 0]
      2 1 0 0 (by decide) (by decide) (by decide) (by decide) (by decide)
      (by decide) (by decide) (by decide),
    by decide,
    (fronNodes_concat_spec gW3b [0, 1] 0).2 [[0, 0]] [⟨0, .fdStartIndex 1⟩]
      (by decide) (by decide) (by decide)⟩

/-! ## RecDetector (recdetect/rec_detect.cpp)

The traversal state: `mInProcess` (a stack, back at the end of the list),
`mDone`, `mRecursions` (per lead rule, its list of paths of child positions)
and `mRule2Recursions` (per rule, the lead rules of the recursions it belongs
to, deduplicated).  The `ContTreeNode` chain of the current path is passed as
a list of rule indices, deepest first.  Fuel makes the traversal total; fuel
exhaustion and the `MASSERT` aborts are `none`. -/

structure DetState where
  inProcess : List Nat
  done : List Nat
  recs : List (Nat × List (List Nat))
  r2r : List (Nat × List Nat)
  deriving DecidableEq, Repr

/-- `RuleFindChild` (ruletable_util, used at rec_detect.cpp:195): the index
of the first child slot holding the sub-table `child`. -/
def ruleFindChild (g : Grammar) (parent child : Nat) : Option Nat :=
  (g parent).mData.findIdx? (fun d => d = .DT_Subtable child)

/-- Step 2 of `RecDetector::AddRecursion` (rec_detect.cpp:191-201): child
positions along a rule path, starting from `parent`. -/
def pathPositions (g : Grammar) : Nat → List Nat → Option (List Nat)
  | _, [] => some []
  | parent, child :: rest =>
    match ruleFindChild g parent child with
    | some idx => (pathPositions g child rest).map (fun ps => idx :: ps)
    | none => none

/-- `RecDetector::FindOrCreateRecursion` + `Recursion::AddPath`
(rec_detect.cpp:203-205, 216-229): append the path to the recursion of
`lead`, creating it at the end of the list when absent. -/
def addPath : List (Nat × List (List Nat)) → Nat → List Nat →
    List (Nat × List (List Nat))
  | [], lead, path => [(lead, [path])]
  | (r, ps) :: rest, lead, path =>
    if r = lead then (r, ps ++ [path]) :: rest
    else (r, ps) :: addPath rest lead path

/-- `RecDetector::AddRule2Recursion` (rec_detect.cpp:119-151): record that
`rule` belongs to the recursion led by `lead`, deduplicated. -/
def addR2R : List (Nat × List Nat) → Nat → Nat → List (Nat × List Nat)
  | [], rule, lead => [(rule, [lead])]
  | (r, ls) :: rest, rule, lead =>
    if r = rule then (r, if lead ∈ ls then ls else ls ++ [lead]) :: rest
    else (r, ls) :: addR2R rest rule lead

/-- `RecDetector::AddRecursion` (rec_detect.cpp:157-212).  Walk up the
current path `p` collecting nodes until the previous occurrence of `rt`
(`MASSERT(target)` fails — `none` — when there is none); the cycle read from
the target downwards is `node_list` reversed.  Record its child positions as
a new path of `rt`'s recursion and map every rule on it to that recursion.
Only `recs` and `r2r` change; `inProcess` and `done` are untouched. -/
def addRecursion (g : Grammar) (rt : Nat) (p : List Nat) (st : DetState) :
    Option DetState :=
  if rt ∈ p then
    match pathPositions g rt (rt :: p.takeWhile (fun n => n ≠ rt)).reverse with
    | some poss =>
      some { st with
        recs := addPath st.recs rt poss,
        r2r := (rt :: p.takeWhile (fun n => n ≠ rt)).reverse.foldl
          (fun m rule => addR2R m rule rt) st.r2r }
    | none => none
  else none

mutual

/-- `RecDetector::DetectRuleTable` (rec_detect.cpp:235-278).  Done tables
return at once; an in-process table records a recursion; otherwise the table
is pushed on the in-process stack, its children are traversed by kind, the
stack top is asserted to be the table and popped, and the table is marked
done (`MASSERT(!IsDone(rt))`). -/
def detectRT (g : Grammar) : Nat → List Nat → Nat → DetState → Option DetState
  | 0, _, _, _ => none
  | fuel + 1, p, rt, st =>
    if rt ∈ st.done then some st
    else if rt ∈ st.inProcess then addRecursion g rt p st
    else
      match detectStep g fuel p rt { st with inProcess := st.inProcess ++ [rt] } with
      | none => none
      | some st2 =>
        if st2.inProcess.getLast? = some rt ∧ rt ∉ st2.done then
          some { st2 with inProcess := st2.inProcess.dropLast,
                          done := st2.done ++ [rt] }
        else none

/-- The `switch (type)` of `DetectRuleTable` (rec_detect.cpp:252-268): the
children traversal by rule kind, on the state with `rt` already pushed. -/
def detectStep (g : Grammar) (fuel : Nat) (p : List Nat) (rt : Nat)
    (st1 : DetState) : Option DetState :=
  match (g rt).mType with
  | .ET_Oneof => detectChildren g fuel (rt :: p) (g rt).mData st1
  | .ET_Data | .ET_Zeroorone | .ET_Zeroormore =>
    -- DetectZeroormore, with `MASSERT(mNum == 1)`
    if (g rt).mData.length = 1 then
      match (g rt).mData.head? with
      | some (.DT_Subtable c) => detectRT g fuel (rt :: p) c st1
      | _ => some st1
    else none
  | .ET_Concatenate =>
    -- DetectConcatenate: first child unconditionally, the rest only when
    -- not in process.
    match
      (match (g rt).mData.head? with
       | some (.DT_Subtable c) => detectRT g fuel (rt :: p) c st1
       | _ => some st1) with
    | some st2 => detectConcatTail g fuel (rt :: p) (g rt).mData.tail st2
    | none => none
  | .ET_Null => some st1

/-- `RecDetector::DetectOneof` (rec_detect.cpp:281-289): every sub-table
child in order. -/
def detectChildren (g : Grammar) :
    Nat → List Nat → List TableData → DetState → Option DetState
  | _, _, [], st => some st
  | fuel, p, .DT_Subtable c :: rest, st =>
    match detectRT g fuel p c st with
    | some st' => detectChildren g fuel p rest st'
    | none => none
  | fuel, p, .DT_Token _ :: rest, st => detectChildren g fuel p rest st

/-- The `i >= 1` loop of `RecDetector::DetectConcatenate`
(rec_detect.cpp:325-332): sub-table children are traversed only when not
already in process. -/
def detectConcatTail (g : Grammar) :
    Nat → List Nat → List TableData → DetState → Option DetState
  | _, _, [], st => some st
  | fuel, p, .DT_Subtable c :: rest, st =>
    if c ∈ st.inProcess then detectConcatTail g fuel p rest st
    else
      match detectRT g fuel p c st with
      | some st' => detectConcatTail g fuel p rest st'
      | none => none
  | fuel, p, .DT_Token _ :: rest, st => detectConcatTail g fuel p rest st

end

/-! ## Claim C10: the traversal invariant of DetectRuleTable -/

theorem addRecursion_preserves (g : Grammar) (rt : Nat) (p : List Nat)
    (st st' : DetState) (h : addRecursion g rt p st = some st') :
    st'.inProcess = st.inProcess ∧ st'.done = st.done := by
  unfold addRecursion at h
  split at h
  · split at h
    · simp only [Option.some.injEq] at h
      subst h
      exact ⟨rfl, rfl⟩
    · exact absurd h (by simp)
  · exact absurd h (by simp)

theorem detectChildren_preserves (g : Grammar) (fuel : Nat)
    (hrt : ∀ p rt st st', detectRT g fuel p rt st = some st' →
      st'.inProcess = st.inProcess ∧ st.done ⊆ st'.done) :
    ∀ l p st st', detectChildren g fuel p l st = some st' →
      st'.inProcess = st.inProcess ∧ st.done ⊆ st'.done := by
  intro l
  induction l with
  | nil =>
    intro p st st' h
    simp only [detectChildren, Option.some.injEq] at h
    subst h
    exact ⟨rfl, List.Subset.refl _⟩
  | cons d rest ih =>
    intro p st st' h
    cases d with
    | DT_Subtable c =>
      simp only [detectChildren] at h
      split at h
      case _ st1 hst1 =>
        obtain ⟨h1, h2⟩ := hrt p c st st1 hst1
        obtain ⟨h3, h4⟩ := ih p st1 st' h
        exact ⟨h3.trans h1, List.Subset.trans h2 h4⟩
      case _ => exact absurd h (by simp)
    | DT_Token tk =>
      simp only [detectChildren] at h
      exact ih p st st' h

theorem detectConcatTail_preserves (g : Grammar) (fuel : Nat)
    (hrt : ∀ p rt st st', detectRT g fuel p rt st = some st' →
      st'.inProcess = st.inProcess ∧ st.done ⊆ st'.done) :
    ∀ l p st st', detectConcatTail g fuel p l st = some st' →
      st'.inProcess = st.inProcess ∧ st.done ⊆ st'.done := by
  intro l
  induction l with
  | nil =>
    intro p st st' h
    simp only [detectConcatTail, Option.some.injEq] at h
    subst h
    exact ⟨rfl, List.Subset.refl _⟩
  | cons d rest ih =>
    intro p st st' h
    cases d with
    | DT_Subtable c =>
      simp only [detectConcatTail] at h
      split at h
      · exact ih p st st' h
      · split at h
        case _ st1 hst1 =>
          obtain ⟨h1, h2⟩ := hrt p c st st1 hst1
          obtain ⟨h3, h4⟩ := ih p st1 st' h
          exact ⟨h3.trans h1, List.Subset.trans h2 h4⟩
        case _ => exact absurd h (by simp)
    | DT_Token tk =>
      simp only [detectConcatTail] at h
      exact ih p st st' h

theorem detectStep_preserves (g : Grammar) (fuel : Nat)
    (hrt : ∀ p rt st st', detectRT g fuel p rt st = some st' →
      st'.inProcess = st.inProcess ∧ st.done ⊆ st'.done) :
    ∀ p rt st1 st2, detectStep g fuel p rt st1 = some st2 →
      st2.inProcess = st1.inProcess ∧ st1.done ⊆ st2.done := by
  intro p rt st1 st2 h
  have hzero : ∀ st1 st2 : DetState,
      (if (g rt).mData.length = 1 then
        match (g rt).mData.head? with
        | some (.DT_Subtable c) => detectRT g fuel (rt :: p) c st1
        | _ => some st1
      else none) = some st2 →
      st2.inProcess = st1.inProcess ∧ st1.done ⊆ st2.done := by
    intro s1 s2 hz
    split at hz
    · split at hz
      all_goals first
        | exact hrt (rt :: p) _ s1 s2 hz
        | (simp only [Option.some.injEq] at hz
           subst hz
           exact ⟨rfl, List.Subset.refl _⟩)
    · exact absurd hz (by simp)
  unfold detectStep at h
  split at h
  · exact detectChildren_preserves g fuel hrt (g rt).mData (rt :: p) st1 st2 h
  · exact hzero st1 st2 h
  · exact hzero st1 st2 h
  · exact hzero st1 st2 h
  · -- ET_Concatenate
    split at h
    case _ sm hm =>
      have hpres : sm.inProcess = st1.inProcess ∧ st1.done ⊆ sm.done := by
        split at hm
        all_goals first
          | exact hrt (rt :: p) _ st1 sm hm
          | (simp only [Option.some.injEq] at hm
             subst hm
             exact ⟨rfl, List.Subset.refl _⟩)
      obtain ⟨h1, h2⟩ := hpres
      obtain ⟨h3, h4⟩ :=
        detectConcatTail_preserves g fuel hrt (g rt).mData.tail (rt :: p) sm st2 h
      exact ⟨h3.trans h1, List.Subset.trans h2 h4⟩
    case _ hm => exact absurd h (by simp)
  · simp only [Option.some.injEq] at h
    subst h
    exact ⟨rfl, List.Subset.refl _⟩

theorem detectRT_preserves (g : Grammar) : ∀ fuel p rt st st',
    detectRT g fuel p rt st = some st' →
    st'.inProcess = st.inProcess ∧ st.done ⊆ st'.done := by
  intro fuel
  induction fuel with
  | zero =>
    intro p rt st st' h
    exact absurd h (by simp [detectRT])
  | succ fuel ih =>
    intro p rt st st' h
    unfold detectRT at h
    split at h
    · simp only [Option.some.injEq] at h
      subst h
      exact ⟨rfl, List.Subset.refl _⟩
    · split at h
      · obtain ⟨h1, h2⟩ := addRecursion_preserves g rt p st st' h
        exact ⟨h1, h2 ▸ List.Subset.refl _⟩
      · split at h
        case _ => exact absurd h (by simp)
        case _ st2 hst2 =>
          obtain ⟨h1, h2⟩ := detectStep_preserves g fuel ih p rt _ st2 hst2
          split at h
          case _ hcond =>
            simp only [Option.some.injEq] at h
            subst h
            constructor
            · show st2.inProcess.dropLast = st.inProcess
              rw [h1]
              show (st.inProcess ++ [rt]).dropLast = st.inProcess
              rw [List.dropLast_concat]
            · show st.done ⊆ st2.done ++ [rt]
              intro x hx
              exact List.mem_append.mpr (Or.inl (h2 hx))
          case _ => exact absurd h (by simp)

/-- C10.  `RecDetector::DetectRuleTable` maintains the traversal invariant:
every call that returns restores the in-process stack to its pre-call state
and only grows the done set; a call that was not short-circuited (its table
neither done nor in process on entry) leaves the table in the done set; and
every later call on a done table returns immediately with the state
unchanged, never descending into children. -/
theorem detectRuleTable_invariant :
    (∀ g fuel p rt st st', detectRT g fuel p rt st = some st' →
      st'.inProcess = st.inProcess ∧ st.done ⊆ st'.done ∧
      (rt ∉ st.done → rt ∉ st.inProcess → rt ∈ st'.done)) ∧
    (∀ g fuel p rt st, rt ∈ st.done → detectRT g (fuel + 1) p rt st = some st) := by
  constructor
  · intro g fuel p rt st st' h
    obtain ⟨h1, h2⟩ := detectRT_preserves g fuel p rt st st' h
    refine ⟨h1, h2, ?_⟩
    intro hdone hip
    cases fuel with
    | zero => exact absurd h (by simp [detectRT])
    | succ fuel =>
      unfold detectRT at h
      rw [if_neg hdone, if_neg hip] at h
      split at h
      case _ => exact absurd h (by simp)
      case _ st2 hst2 =>
        split at h
        · simp only [Option.some.injEq] at h
          subst h
          simp
        · exact absurd h (by simp)
  · intro g fuel p rt st hdone
    unfold detectRT
    rw [if_pos hdone]

/-- One OneOf table whose only child is a token. -/
def gT : Grammar := fun _ => ⟨.ET_Oneof, [.DT_Token 0]⟩

theorem detectRuleTable_invariant_witness :
    detectRT gT 1 [] 0 ⟨[], [], [], []⟩ = some ⟨[], [0], [], []⟩ ∧
      (⟨[], [0], [], []⟩ : DetState).inProcess = (⟨[], [], [], []⟩ : DetState).inProcess ∧
      (0 : Nat) ∈ (⟨[], [0], [], []⟩ : DetState).done ∧
      detectRT gT 1 [] 0 ⟨[], [0], [], []⟩ = some ⟨[], [0], [], []⟩ := by
  have hev : detectRT gT 1 [] 0 ⟨[], [], [], []⟩ = some ⟨[], [0], [], []⟩ := by
    simp [detectRT, detectStep, detectChildren, gT]
  have h := detectRuleTable_invariant.1 gT 1 [] 0 ⟨[], [], [], []⟩ ⟨[], [0], [], []⟩ hev
  have h2 := detectRuleTable_invariant.2 gT 0 [] 0 ⟨[], [0], [], []⟩ (by simp)
  exact ⟨hev, h.1, h.2.2 (by simp) (by simp), h2⟩

end MapleFE
